import Mathlib

/-!
Verification of the detection post-processing pipeline of the
freshtrack-backend repository (`src/services/imageProcessor.js`).

The JavaScript code is shallowly embedded: `Number` values that carry pixel
data, geometry and scores are modelled as rationals (`ℚ`); the flat tensor
buffers are lists of rationals read with a total `getD`; the one place where
JavaScript produces a non-real number (division by a zero denominator in
`iou`, which yields `NaN` or `Infinity`) is modelled with `Option ℚ`, `none`
standing for the non-real result.  Field names follow the source.
-/

namespace FreshTrack

/-- The `CLASS_NAMES` table of `imageProcessor.js` (lines 19-26). -/
def CLASS_NAMES : List String :=
  ["Fresh_Apple", "Fresh_Banana", "Fresh_Beef", "Fresh_Carrot", "Fresh_Chicken",
   "Fresh_Cucumber", "Fresh_Manggo", "Fresh_Okra", "Fresh_Orange", "Fresh_Pepper",
   "Fresh_Pork", "Fresh_Potato", "Fresh_Strawberry",
   "Rotten_Apple", "Rotten_Banana", "Rotten_Beef", "Rotten_Carrot", "Rotten_Chicken",
   "Rotten_Cucumber", "Rotten_Manggo", "Rotten_Okra", "Rotten_Orange", "Rotten_Pepper",
   "Rotten_Pork", "Rotten_Potato", "Rotten_Strawberry"]

/-- A detection candidate as pushed by `postprocess` (line 142):
`{ x, y, width: w, height: h, confidence: conf, class_id: bestClass, label }`.
`class_id` is `Option ℕ` because the JavaScript argmax initialises
`bestClass = null` and may leave it `null`. -/
structure Candidate where
  x : ℚ
  y : ℚ
  width : ℚ
  height : ℚ
  confidence : ℚ
  class_id : Option ℕ
  label : String
deriving DecidableEq, Repr

/-- How JavaScript stringifies `bestClass` inside the template literal
`Unknown_${bestClass}`: `null` prints as `"null"`, a number prints as its
decimal digits. -/
def jsShow : Option ℕ → String
  | none => "null"
  | some i => toString i

/-- The label expression `CLASS_NAMES[bestClass] || ‵Unknown_${bestClass}‵`
(line 141).  An out-of-range or `null` index reads as `undefined`, which is
falsy, so the synthesized label is used; an empty string would also be falsy,
which the embedding mirrors faithfully. -/
def labelFor (bestClass : Option ℕ) : String :=
  match bestClass with
  | none => "Unknown_" ++ jsShow none
  | some i =>
    match CLASS_NAMES.get? i with
    | none => "Unknown_" ++ jsShow (some i)
    | some s => if s = "" then "Unknown_" ++ jsShow (some i) else s

/-- The per-slot class argmax of `postprocess` (lines 133-140):
`bestClass = null`, `bestScore = 0`, then for `j = 5 .. numAttributes-1`,
if `data[offset+j] > bestScore` update both.  Returns
`(bestClass, bestScore)`. -/
def argmaxClass (data : List ℚ) (offset numAttributes : ℕ) : Option ℕ × ℚ :=
  (List.range' 5 (numAttributes - 5)).foldl
    (fun acc j =>
      if data.getD (offset + j) 0 > acc.2 then (some (j - 5), data.getD (offset + j) 0)
      else acc)
    (none, 0)

/-- The candidate object built for slot `i` of the raw output tensor
(lines 125-142): geometry at offsets `0..3`, confidence at offset `4`,
class from `argmaxClass`, label from `labelFor`. -/
def decodeSlot (data : List ℚ) (numAttributes i : ℕ) : Candidate :=
  let offset := i * numAttributes
  let bestClass := (argmaxClass data offset numAttributes).1
  { x := data.getD offset 0
    y := data.getD (offset + 1) 0
    width := data.getD (offset + 2) 0
    height := data.getD (offset + 3) 0
    confidence := data.getD (offset + 4) 0
    class_id := bestClass
    label := labelFor bestClass }

/-- The decode loop of `postprocess` (lines 124-144): every slot whose
confidence passes `conf >= CONFIDENCE_THRESHOLD` contributes one candidate, in
slot order; all others are dropped.  The threshold is the environment-derived
`CONFIDENCE_THRESHOLD`, kept as a parameter. -/
def decode (data : List ℚ) (numPredictions numAttributes : ℕ)
    (confidenceThreshold : ℚ) : List Candidate :=
  (List.range numPredictions).filterMap fun i =>
    if data.getD (i * numAttributes + 4) 0 ≥ confidenceThreshold then
      some (decodeSlot data numAttributes i)
    else
      none

/-- A decoded pixel: the `{ r, g, b }` bytes returned by
`Jimp.intToRGBA(image.getPixelColor(x, y))` (line 92). -/
structure Pixel where
  r : ℕ
  g : ℕ
  b : ℕ
deriving DecidableEq, Repr

/-- The `jimpFallback` fill loop (lines 88-98): scan rows top-to-bottom and
pixels left-to-right, and for each pixel push `r/255`, `g/255`, `b/255`
consecutively — an interleaved per-pixel RGB layout.  The image is given as
its pixel accessor `getPixel x y` after the resize. -/
def jimpFallback (getPixel : ℕ → ℕ → Pixel) (width height : ℕ) : List ℚ :=
  (List.range height).flatMap fun y =>
    (List.range width).flatMap fun x =>
      [((getPixel x y).r : ℚ) / 255, ((getPixel x y).g : ℚ) / 255,
       ((getPixel x y).b : ℚ) / 255]

/-- The sharp branch of `preprocessImage` (lines 59-70): `sharp(...).raw()`
delivers the resized pixels as a byte buffer in interleaved RGB order
(the documented raw output layout of sharp), and the loop copies it element by
element, dividing each byte by 255 — so the element order of the buffer is
preserved unchanged. -/
def preprocessSharp (rawInterleaved : List ℕ) : List ℚ :=
  rawInterleaved.map fun v => (v : ℚ) / 255

/-- The interleaved RGB byte buffer that the `.raw()` call of sharp produces for a
pixel grid: row-major pixels, three consecutive bytes per pixel. -/
def rawInterleavedOf (getPixel : ℕ → ℕ → Pixel) (width height : ℕ) : List ℕ :=
  (List.range height).flatMap fun y =>
    (List.range width).flatMap fun x =>
      [(getPixel x y).r, (getPixel x y).g, (getPixel x y).b]

/-- Modelled from the spec: the planar channel-major tensor layout that the
declared shape `[1, 3, height, width]` (line 79) calls for — all red values
for every pixel in row-major order, then all green values, then all blue
values, each normalized by 255. -/
def planarLayout (getPixel : ℕ → ℕ → Pixel) (width height : ℕ) : List ℚ :=
  ((List.range height).flatMap fun y =>
    (List.range width).map fun x => ((getPixel x y).r : ℚ) / 255) ++
  ((List.range height).flatMap fun y =>
    (List.range width).map fun x => ((getPixel x y).g : ℚ) / 255) ++
  ((List.range height).flatMap fun y =>
    (List.range width).map fun x => ((getPixel x y).b : ℚ) / 255)

/-- The `interArea` computation of the `iou` closure (lines 155-159):
`Math.max(0, xB - xA) * Math.max(0, yB - yA)` with
`xA = max(a.x, b.x)`, `xB = min(a.x + a.width, b.x + b.width)` and likewise
for `y`.  Note the code uses `a.x` and `a.x + a.width` directly: it treats
`(x, y)` as a corner, with no `- width/2` center conversion. -/
def interArea (a b : Candidate) : ℚ :=
  max 0 (min (a.x + a.width) (b.x + b.width) - max a.x b.x) *
  max 0 (min (a.y + a.height) (b.y + b.height) - max a.y b.y)

/-- The denominator `boxAArea + boxBArea - interArea` of line 162. -/
def iouDenom (a b : Candidate) : ℚ :=
  a.width * a.height + b.width * b.height - interArea a b

/-- The value of `iou(a, b)` (line 162): the division is unguarded, so when
the denominator is `0` JavaScript produces `NaN` (numerator `0`) or
`Infinity` (positive numerator) — in both cases not a real number, modelled
as `none`. -/
def iouOpt (a b : Candidate) : Option ℚ :=
  if iouDenom a b = 0 then none else some (interArea a b / iouDenom a b)

/-- The comparison `iou(current, b) < threshold` used by the suppression
filter (line 168).  When `iou` is `NaN` or `Infinity` (denominator `0`) the
JavaScript comparison is `false` for every finite threshold. -/
def iouLt (a b : Candidate) (threshold : ℚ) : Bool :=
  match iouOpt a b with
  | none => false
  | some v => v < threshold

/-- Stable insertion of a candidate into a list sorted by confidence
descending: the new element goes before the first element whose confidence
is not larger, so earlier-inserted elements of equal confidence keep their
place. -/
def insertByConf (c : Candidate) : List Candidate → List Candidate
  | [] => [c]
  | x :: xs =>
    if c.confidence ≥ x.confidence then c :: x :: xs else x :: insertByConf c xs

/-- The sort `boxes.sort((a, b) => b.confidence - a.confidence)` (line 151).
ECMAScript `Array.prototype.sort` is stable, so the result is the unique
reordering that is non-increasing in confidence and keeps equal-confidence
elements in their original relative order; a stable insertion sort computes
exactly that reordering. -/
def sortByConfDesc : List Candidate → List Candidate
  | [] => []
  | x :: xs => insertByConf x (sortByConfDesc xs)

/-- The greedy `while` loop of `nonMaxSuppression` (lines 165-169): shift the
highest-confidence remaining candidate, keep it, and drop every remaining
candidate whose IoU with it fails `iou(current, b) < threshold`. -/
def nmsLoop (threshold : ℚ) : List Candidate → List Candidate
  | [] => []
  | c :: rest => c :: nmsLoop threshold (rest.filter (fun b => iouLt c b threshold))
termination_by l => l.length
decreasing_by
  simp only [List.length_cons]
  exact Nat.lt_succ_of_le (List.length_filter_le _ _)

/-- The `nonMaxSuppression(boxes, threshold)` function (lines 149-172): empty input short
circuit, stable sort by confidence descending, then the greedy loop. -/
def nonMaxSuppression (boxes : List Candidate) (threshold : ℚ) : List Candidate :=
  if boxes = [] then [] else nmsLoop threshold (sortByConfDesc boxes)

/-- The `postprocess` function (lines 119-147): decode every slot with the confidence
filter, then run non-maximum suppression with the environment-derived
`NMS_THRESHOLD`, kept as a parameter. -/
def postprocess (data : List ℚ) (numPredictions numAttributes : ℕ)
    (confidenceThreshold nmsThreshold : ℚ) : List Candidate :=
  nonMaxSuppression (decode data numPredictions numAttributes confidenceThreshold)
    nmsThreshold

/-- Observable effects of a `processImage` invocation, in order. -/
inductive PEvent where
  | detectCall (path : String)
  | unlinkCall (path : String)
  | warnLog (path : String)
deriving DecidableEq, Repr

/-- The environment a `processImage` call runs against: what
`detectObjects(filePath)` would produce (its detections, or the error it
throws — preprocessing or inference failure alike), and whether
`fs.unlinkSync(filePath)` succeeds. -/
structure PWorld where
  detectOutcome : Except String (List Candidate)
  unlinkSucceeds : Bool

/-- The `processImage` function (lines 177-192): `try { return detectObjects(filePath) }
catch (error) { throw error } finally { try { fs.unlinkSync(filePath) }
catch { warn } }`.  The result is the outcome of the body, unchanged (success
returns the detections, failure re-throws the same error); the `finally`
block always attempts the unlink, and an unlink failure only logs a
warning. -/
def processImage (filePath : String) (w : PWorld) :
    Except String (List Candidate) × List PEvent :=
  let bodyEvents := [PEvent.detectCall filePath]
  let finallyEvents :=
    PEvent.unlinkCall filePath ::
      (if w.unlinkSucceeds then [] else [PEvent.warnLog filePath])
  (w.detectOutcome, bodyEvents ++ finallyEvents)

/-- Modelled from the claim for comparison: IoU computed after converting
each candidate from center-form `(x, y, w, h)` to corner-form via
`x1 = x - w/2`, `y1 = y - h/2`, `x2 = x + w/2`, `y2 = y + h/2`, then
`inter / (areaA + areaB - inter)` with the same non-real-denominator
handling as the code. -/
def iouCenterClaimOpt (a b : Candidate) : Option ℚ :=
  let ax1 := a.x - a.width / 2
  let ay1 := a.y - a.height / 2
  let ax2 := a.x + a.width / 2
  let ay2 := a.y + a.height / 2
  let bx1 := b.x - b.width / 2
  let by1 := b.y - b.height / 2
  let bx2 := b.x + b.width / 2
  let by2 := b.y + b.height / 2
  let inter := max 0 (min ax2 bx2 - max ax1 bx1) * max 0 (min ay2 by2 - max ay1 by1)
  let denom := a.width * a.height + b.width * b.height - inter
  if denom = 0 then none else some (inter / denom)

/-- Modelled from the amended claim: IoU on axis-aligned boxes taking
`(x, y)` directly as the top-left corner — `x1 = x`, `y1 = y`,
`x2 = x + w`, `y2 = y + h`, no `- w/2` center shift — then
`inter / (areaA + areaB - inter)`. -/
def iouCornerAmendedOpt (a b : Candidate) : Option ℚ :=
  let ax1 := a.x
  let ay1 := a.y
  let ax2 := a.x + a.width
  let ay2 := a.y + a.height
  let bx1 := b.x
  let by1 := b.y
  let bx2 := b.x + b.width
  let by2 := b.y + b.height
  let inter := max 0 (min ax2 bx2 - max ax1 bx1) * max 0 (min ay2 by2 - max ay1 by1)
  let denom := a.width * a.height + b.width * b.height - inter
  if denom = 0 then none else some (inter / denom)

/-- A zero-area box: width and height both `0`. -/
def zeroAreaBox : Candidate :=
  { x := 0, y := 0, width := 0, height := 0, confidence := 1,
    class_id := none, label := "zero" }

/-- C1: the tensor layout is NOT planar channel-major.  On the 2×1 image
with pixels `(255,0,0)` and `(0,255,0)`, the `jimpFallback` loop emits the
interleaved buffer `[1, 0, 0, 0, 1, 0]` (per-pixel RGB triples), the sharp
branch emits the same interleaved buffer, while the planar layout demanded
by the declared shape `[1, 3, height, width]` would be
`[1, 0, 0, 1, 0, 0]` — so the code contradicts its own shape declaration. -/
theorem tensor_layout_is_interleaved_not_planar :
    jimpFallback (fun x _ => if x = 0 then ⟨255, 0, 0⟩ else ⟨0, 255, 0⟩) 2 1 =
      [1, 0, 0, 0, 1, 0] ∧
    preprocessSharp
        (rawInterleavedOf (fun x _ => if x = 0 then ⟨255, 0, 0⟩ else ⟨0, 255, 0⟩) 2 1) =
      [1, 0, 0, 0, 1, 0] ∧
    planarLayout (fun x _ => if x = 0 then ⟨255, 0, 0⟩ else ⟨0, 255, 0⟩) 2 1 =
      [1, 0, 0, 1, 0, 0] ∧
    jimpFallback (fun x _ => if x = 0 then ⟨255, 0, 0⟩ else ⟨0, 255, 0⟩) 2 1 ≠
      planarLayout (fun x _ => if x = 0 then ⟨255, 0, 0⟩ else ⟨0, 255, 0⟩) 2 1 := by
  refine ⟨?_, ?_, ?_, ?_⟩ <;>
    norm_num [jimpFallback, planarLayout, preprocessSharp, rawInterleavedOf,
      List.range_succ]

/-- C2 counterexample: on boxes `a = (x=0, y=0, w=2, h=2)` and
`b = (x=1, y=1, w=4, h=4)` the `iou` of the code yields `1/19`, while the
claimed center-form conversion yields `1/4` — the code does not perform the
`x - w/2` conversion. -/
theorem iou_not_center_form_at_concrete_boxes :
    iouOpt
        { x := 0, y := 0, width := 2, height := 2, confidence := 1,
          class_id := none, label := "a" }
        { x := 1, y := 1, width := 4, height := 4, confidence := 1,
          class_id := none, label := "b" } = some (1 / 19) ∧
    iouCenterClaimOpt
        { x := 0, y := 0, width := 2, height := 2, confidence := 1,
          class_id := none, label := "a" }
        { x := 1, y := 1, width := 4, height := 4, confidence := 1,
          class_id := none, label := "b" } = some (1 / 4) ∧
    (1 / 19 : ℚ) ≠ (1 / 4 : ℚ) := by
  refine ⟨?_, ?_, ?_⟩ <;>
    norm_num [iouOpt, iouCenterClaimOpt, iouDenom, interArea]

/-- C2 amended: `iou` evaluates
`intersectionArea / (areaA + areaB − intersectionArea)` on axis-aligned
boxes whose corners are taken directly from the fields — `x1 = x`,
`y1 = y`, `x2 = x + w`, `y2 = y + h` — with no center-form shift. -/
theorem iou_is_top_left_corner_form (a b : Candidate) :
    iouOpt a b = iouCornerAmendedOpt a b := rfl

/-- C3 counterexample: for two zero-area boxes the denominator
`areaA + areaB − interArea` is `0` and the division is unguarded: the
JavaScript result is `NaN`, not the real number `0` — modelled as `none`,
which in particular differs from `some 0`. -/
theorem iou_division_by_zero_unguarded :
    iouDenom zeroAreaBox zeroAreaBox = 0 ∧
    iouOpt zeroAreaBox zeroAreaBox = none ∧
    iouOpt zeroAreaBox zeroAreaBox ≠ some 0 := by
  refine ⟨?_, ?_, ?_⟩ <;>
    norm_num [iouOpt, iouDenom, interArea, zeroAreaBox]
  exact fun h => Option.noConfusion h

/-- C3 amended: whenever `areaA + areaB − interArea = 0`, `iou` returns a
non-real number (`NaN` or `Infinity`, modelled as `none`) rather than `0`;
consequently the suppression comparison `iou < threshold` is `false` for
every threshold, so such a candidate is removed by the filter, never
kept. -/
theorem iou_zero_denominator_yields_no_real (a b : Candidate) (t : ℚ)
    (h : iouDenom a b = 0) : iouOpt a b = none ∧ iouLt a b t = false := by
  constructor
  · simp [iouOpt, h]
  · simp [iouLt, iouOpt, h]

/-- Witness for the C3 amended theorem at the two zero-area boxes and
threshold `1/2`. -/
theorem iou_zero_denominator_yields_no_real_witness :
    iouOpt zeroAreaBox zeroAreaBox = none ∧
    iouLt zeroAreaBox zeroAreaBox (1 / 2) = false :=
  iou_zero_denominator_yields_no_real zeroAreaBox zeroAreaBox (1 / 2)
    (by norm_num [iouDenom, interArea, zeroAreaBox])

/-- C6: `processImage` attempts to delete the input file on every exit
path — the `finally` block runs whether `detectObjects` succeeded or threw —
and the caller-visible result is exactly the outcome of the body regardless of
whether the unlink succeeds: detections on success, the original error
re-thrown on failure, never an error from the deletion itself. -/
theorem processImage_always_unlinks_and_never_escalates_delete_failure
    (filePath : String) (detectOutcome : Except String (List Candidate))
    (unlinkSucceeds : Bool) :
    (processImage filePath ⟨detectOutcome, unlinkSucceeds⟩).1 = detectOutcome ∧
    PEvent.unlinkCall filePath ∈
      (processImage filePath ⟨detectOutcome, unlinkSucceeds⟩).2 := by
  refine ⟨rfl, ?_⟩
  simp [processImage]

theorem nmsLoop_sublist (t : ℚ) (l : List Candidate) : (nmsLoop t l).Sublist l := by
  induction l using nmsLoop.induct t with
  | case1 => simp [nmsLoop]
  | case2 c rest ih =>
    rw [nmsLoop]
    exact (ih.trans (List.filter_sublist _)).cons₂ c

theorem interArea_comm (a b : Candidate) : interArea a b = interArea b a := by
  unfold interArea
  rw [max_comm a.x b.x, min_comm (a.x + a.width) (b.x + b.width),
    max_comm a.y b.y, min_comm (a.y + a.height) (b.y + b.height)]

theorem iouDenom_comm (a b : Candidate) : iouDenom a b = iouDenom b a := by
  unfold iouDenom
  rw [interArea_comm, add_comm (a.width * a.height)]

theorem iouOpt_comm (a b : Candidate) : iouOpt a b = iouOpt b a := by
  unfold iouOpt
  rw [iouDenom_comm, interArea_comm]

theorem iouLt_comm (a b : Candidate) (t : ℚ) : iouLt a b t = iouLt b a t := by
  unfold iouLt
  rw [iouOpt_comm]

theorem nmsLoop_pairwise (t : ℚ) (l : List Candidate) :
    (nmsLoop t l).Pairwise (fun a b => iouLt a b t = true) := by
  induction l using nmsLoop.induct t with
  | case1 => simp [nmsLoop]
  | case2 c rest ih =>
    rw [nmsLoop]
    refine List.Pairwise.cons (fun b hb => ?_) ih
    have hbf : b ∈ rest.filter (fun b => iouLt c b t) :=
      (nmsLoop_sublist t _).subset hb
    exact (List.mem_filter.mp hbf).2

theorem nmsLoop_eq_self (t : ℚ) (l : List Candidate)
    (h : l.Pairwise (fun a b => iouLt a b t = true)) : nmsLoop t l = l := by
  induction l using nmsLoop.induct t with
  | case1 => rw [nmsLoop]
  | case2 c rest ih =>
    rw [nmsLoop]
    rcases List.pairwise_cons.mp h with ⟨hc, hrest⟩
    have hf : rest.filter (fun b => iouLt c b t) = rest :=
      List.filter_eq_self.mpr hc
    rw [hf] at ih ⊢
    rw [ih hrest]

theorem insertByConf_perm (c : Candidate) (l : List Candidate) :
    (insertByConf c l).Perm (c :: l) := by
  induction l with
  | nil => exact List.Perm.refl _
  | cons x xs ih =>
    unfold insertByConf
    split
    · exact List.Perm.refl _
    · exact (ih.cons x).trans (List.Perm.swap c x xs)

theorem sortByConfDesc_perm (l : List Candidate) : (sortByConfDesc l).Perm l := by
  induction l with
  | nil => exact List.Perm.refl _
  | cons x xs ih =>
    unfold sortByConfDesc
    exact (insertByConf_perm x _).trans (ih.cons x)

theorem insertByConf_pairwise (c : Candidate) (l : List Candidate)
    (h : l.Pairwise (fun a b => b.confidence ≤ a.confidence)) :
    (insertByConf c l).Pairwise (fun a b => b.confidence ≤ a.confidence) := by
  induction l with
  | nil => simp [insertByConf]
  | cons x xs ih =>
    unfold insertByConf
    rcases List.pairwise_cons.mp h with ⟨hx, hxs⟩
    split
    · rename_i hc
      refine List.pairwise_cons.mpr ⟨?_, h⟩
      intro b hb
      rcases List.mem_cons.mp hb with hb | hb
      · exact hb ▸ hc
      · exact le_trans (hx b hb) hc
    · rename_i hc
      refine List.pairwise_cons.mpr ⟨?_, ih hxs⟩
      intro b hb
      rcases List.mem_cons.mp ((insertByConf_perm c xs).mem_iff.mp hb) with hb | hb
      · exact hb ▸ le_of_lt (lt_of_not_ge hc)
      · exact hx b hb

theorem sortByConfDesc_pairwise (l : List Candidate) :
    (sortByConfDesc l).Pairwise (fun a b => b.confidence ≤ a.confidence) := by
  induction l with
  | nil => simp [sortByConfDesc]
  | cons x xs ih => exact insertByConf_pairwise x _ ih

theorem sortByConfDesc_eq_self (l : List Candidate)
    (h : l.Pairwise (fun a b => b.confidence ≤ a.confidence)) :
    sortByConfDesc l = l := by
  induction l with
  | nil => rfl
  | cons x xs ih =>
    rcases List.pairwise_cons.mp h with ⟨hx, hxs⟩
    unfold sortByConfDesc
    rw [ih hxs]
    cases xs with
    | nil => rfl
    | cons y ys =>
      unfold insertByConf
      rw [if_pos (hx y (List.mem_cons_self y ys))]

theorem mem_nonMaxSuppression (c : Candidate) (l : List Candidate) (k : ℚ)
    (h : c ∈ nonMaxSuppression l k) : c ∈ l := by
  unfold nonMaxSuppression at h
  split at h
  · simp at h
  · exact (sortByConfDesc_perm l).mem_iff.mp ((nmsLoop_sublist k _).subset h)

/-- The subsequence of candidates whose confidence is exactly `q`, in list
order — the relative order of one confidence class. -/
def confFilter (q : ℚ) (l : List Candidate) : List Candidate :=
  l.filter fun b => b.confidence = q

theorem confFilter_insertByConf (q : ℚ) (c : Candidate) (l : List Candidate) :
    confFilter q (insertByConf c l) =
      if c.confidence = q then c :: confFilter q l else confFilter q l := by
  induction l with
  | nil =>
    by_cases hq : c.confidence = q <;> simp [insertByConf, confFilter, hq]
  | cons x xs ih =>
    unfold insertByConf
    split
    · by_cases hq : c.confidence = q <;> simp [confFilter, List.filter_cons, hq]
    · rename_i hc
      have hxc : c.confidence < x.confidence := lt_of_not_ge hc
      by_cases hq : c.confidence = q
      · have hx : ¬(x.confidence = q) := by
          intro hxq
          rw [hq, hxq] at hxc
          exact lt_irrefl q hxc
        simp only [confFilter, List.filter_cons] at ih ⊢
        simp [hq, hx] at ih ⊢
        exact ih
      · simp only [confFilter, List.filter_cons] at ih ⊢
        simp only [hq, if_false] at ih
        by_cases hx : x.confidence = q <;> simp [hq, hx, ih]

theorem confFilter_sortByConfDesc (q : ℚ) (l : List Candidate) :
    confFilter q (sortByConfDesc l) = confFilter q l := by
  induction l with
  | nil => rfl
  | cons x xs ih =>
    unfold sortByConfDesc
    rw [confFilter_insertByConf, ih]
    by_cases hx : x.confidence = q <;> simp [confFilter, List.filter_cons, hx]

theorem sorted_eq_of_confFilter :
    ∀ (s1 s2 : List Candidate),
      s1.Pairwise (fun a b => b.confidence ≤ a.confidence) →
      s2.Pairwise (fun a b => b.confidence ≤ a.confidence) →
      (∀ q, confFilter q s1 = confFilter q s2) → s1 = s2 := by
  intro s1
  induction s1 with
  | nil =>
    intro s2 _ _ h
    cases s2 with
    | nil => rfl
    | cons b t2 =>
      have hb := h b.confidence
      simp [confFilter, List.filter_cons] at hb
  | cons a t1 ih =>
    intro s2 h1 h2 h
    cases s2 with
    | nil =>
      have ha := h a.confidence
      simp [confFilter, List.filter_cons] at ha
    | cons b t2 =>
      have ha2 : a ∈ b :: t2 := by
        have hmem : a ∈ confFilter a.confidence (a :: t1) := by
          simp [confFilter, List.filter_cons]
        rw [h a.confidence] at hmem
        exact (List.mem_filter.mp hmem).1
      have hb1 : b ∈ a :: t1 := by
        have hmem : b ∈ confFilter b.confidence (b :: t2) := by
          simp [confFilter, List.filter_cons]
        rw [← h b.confidence] at hmem
        exact (List.mem_filter.mp hmem).1
      have hba : b.confidence ≤ a.confidence := by
        rcases List.mem_cons.mp hb1 with hb | hb
        · rw [hb]
        · exact (List.pairwise_cons.mp h1).1 b hb
      have hab : a.confidence ≤ b.confidence := by
        rcases List.mem_cons.mp ha2 with hA | hA
        · rw [hA]
        · exact (List.pairwise_cons.mp h2).1 a hA
      have hq : b.confidence = a.confidence := le_antisymm hba hab
      have hcf := h a.confidence
      have e1 : confFilter a.confidence (a :: t1) = a :: confFilter a.confidence t1 := by
        simp [confFilter, List.filter_cons]
      have e2 : confFilter a.confidence (b :: t2) = b :: confFilter a.confidence t2 := by
        simp [confFilter, List.filter_cons, hq]
      rw [e1, e2] at hcf
      injection hcf with hheads htails
      subst hheads
      have htail : ∀ q', confFilter q' t1 = confFilter q' t2 := by
        intro q'
        by_cases hq' : q' = a.confidence
        · rw [hq']
          exact htails
        · have ha' : ¬(a.confidence = q') := fun hh => hq' hh.symm
          have l1 : confFilter q' (a :: t1) = confFilter q' t1 := by
            simp [confFilter, List.filter_cons, ha']
          have l2 : confFilter q' (a :: t2) = confFilter q' t2 := by
            simp [confFilter, List.filter_cons, ha']
          rw [← l1, ← l2]
          exact h q'
      rw [ih t2 (List.pairwise_cons.mp h1).2 (List.pairwise_cons.mp h2).2 htail]

/-- C4: every candidate surviving the decode filter, and a fortiori every
candidate in the final `postprocess` result, has confidence at least the
confidence threshold: the `conf >= CONFIDENCE_THRESHOLD` check is a strict
early filter and suppression only ever removes candidates, never re-adds
one. -/
theorem decoded_and_final_confidence_ge_threshold
    (data : List ℚ) (numPredictions numAttributes : ℕ) (t k : ℚ) :
    (∀ c ∈ decode data numPredictions numAttributes t, t ≤ c.confidence) ∧
    (∀ c ∈ postprocess data numPredictions numAttributes t k, t ≤ c.confidence) := by
  have hdec : ∀ c ∈ decode data numPredictions numAttributes t, t ≤ c.confidence := by
    intro c hc
    rcases List.mem_filterMap.mp hc with ⟨i, hi, hfi⟩
    by_cases hconf : data.getD (i * numAttributes + 4) 0 ≥ t
    · rw [if_pos hconf] at hfi
      injection hfi with hfi
      rw [← hfi]
      exact hconf
    · rw [if_neg hconf] at hfi
      exact absurd hfi (by simp)
  exact ⟨hdec, fun c hc => hdec c (mem_nonMaxSuppression c _ k hc)⟩

/-- Witness for C4 on the one-slot tensor `[0, 0, 1, 1, 2, 3]` with
`numAttributes = 6`, confidence threshold `1` and NMS threshold `1`: the
single surviving candidate has confidence `2 ≥ 1`. -/
theorem decoded_and_final_confidence_ge_threshold_witness :
    (1 : ℚ) ≤ (decodeSlot [0, 0, 1, 1, 2, 3] 6 0).confidence := by
  apply (decoded_and_final_confidence_ge_threshold [0, 0, 1, 1, 2, 3] 1 6 1 1).2
  have h1 : decode [(0 : ℚ), 0, 1, 1, 2, 3] 1 6 1 =
      [decodeSlot [0, 0, 1, 1, 2, 3] 6 0] := by
    simp [decode, List.range_succ]
  have h2 : postprocess [(0 : ℚ), 0, 1, 1, 2, 3] 1 6 1 1 =
      [decodeSlot [0, 0, 1, 1, 2, 3] 6 0] := by
    rw [postprocess, h1, nonMaxSuppression, if_neg (by simp)]
    simp [sortByConfDesc, insertByConf]
    rw [nmsLoop]
    simp only [List.filter_nil]
    rw [nmsLoop]
  rw [h2]
  exact List.mem_singleton.mpr rfl

/-- C5: after suppression, every pair of distinct kept candidates has a
well-defined IoU strictly below the threshold (in both argument orders,
IoU being symmetric), and a candidate whose IoU with a kept one equals the
threshold exactly fails the `iou < threshold` filter — the removal boundary
is inclusive. -/
theorem kept_pairs_have_iou_strictly_below_threshold
    (boxes : List Candidate) (k : ℚ) :
    (nonMaxSuppression boxes k).Pairwise
      (fun a b => iouLt a b k = true ∧ iouLt b a k = true) ∧
    (∀ a b : Candidate, iouOpt a b = some k → iouLt a b k = false) := by
  constructor
  · unfold nonMaxSuppression
    split
    · exact List.Pairwise.nil
    · exact (nmsLoop_pairwise k _).imp (fun h => ⟨h, by rw [iouLt_comm]; exact h⟩)
  · intro a b hab
    unfold iouLt
    rw [hab]
    simp

/-- Witness for C5: the boxes `(0,0,2,2)` and `(0,0,4,4)` have IoU exactly
`1/4`, and at threshold `1/4` the filter comparison is `false`, so the
exactly-at-threshold candidate is suppressed. -/
theorem kept_pairs_have_iou_strictly_below_threshold_witness :
    iouLt
      { x := 0, y := 0, width := 2, height := 2, confidence := 1,
        class_id := none, label := "a" }
      { x := 0, y := 0, width := 4, height := 4, confidence := 1,
        class_id := none, label := "b" } (1 / 4) = false := by
  apply (kept_pairs_have_iou_strictly_below_threshold [] (1 / 4)).2
  norm_num [iouOpt, iouDenom, interArea]

/-- C7: non-maximum suppression is idempotent — its output is sorted by
confidence descending and pairwise below the IoU threshold, so a second run
sorts it to itself and removes nothing. -/
theorem nonMaxSuppression_idempotent (boxes : List Candidate) (k : ℚ) :
    nonMaxSuppression (nonMaxSuppression boxes k) k = nonMaxSuppression boxes k := by
  by_cases hb : boxes = []
  · subst hb
    simp [nonMaxSuppression]
  · have hout : nonMaxSuppression boxes k = nmsLoop k (sortByConfDesc boxes) := by
      unfold nonMaxSuppression
      rw [if_neg hb]
    by_cases ho : nonMaxSuppression boxes k = []
    · rw [ho]
      simp [nonMaxSuppression]
    · have hsorted : (nonMaxSuppression boxes k).Pairwise
          (fun a b => b.confidence ≤ a.confidence) := by
        rw [hout]
        exact List.Pairwise.sublist (nmsLoop_sublist k _) (sortByConfDesc_pairwise boxes)
      have hpair : (nonMaxSuppression boxes k).Pairwise
          (fun a b => iouLt a b k = true) := by
        rw [hout]
        exact nmsLoop_pairwise k _
      conv_lhs => rw [nonMaxSuppression]
      rw [if_neg ho, sortByConfDesc_eq_self _ hsorted, nmsLoop_eq_self k _ hpair]


/-- C8: the sort is by confidence descending with a stable tie-break.  Two
input lists that agree, at every confidence value `q`, on the subsequence of
their candidates with confidence `q` (i.e. permutations of each other that
preserve the relative order of equal-confidence candidates) produce the
identical suppression output; and in the output, the equal-confidence
candidates appear in their original decode order (the `q`-subsequence of
the output is a subsequence of that of the input). -/
theorem suppression_respects_stable_tie_break
    (l1 l2 : List Candidate) (k : ℚ)
    (h : ∀ q, confFilter q l1 = confFilter q l2) :
    nonMaxSuppression l1 k = nonMaxSuppression l2 k ∧
    (∀ q, (confFilter q (nonMaxSuppression l1 k)).Sublist (confFilter q l1)) := by
  have hnil : l1 = [] ↔ l2 = [] := by
    constructor
    · intro h1
      subst h1
      cases l2 with
      | nil => rfl
      | cons b t =>
        have hb := h b.confidence
        simp [confFilter, List.filter_cons] at hb
    · intro h2
      subst h2
      cases l1 with
      | nil => rfl
      | cons b t =>
        have hb := h b.confidence
        simp [confFilter, List.filter_cons] at hb
  constructor
  · have hsort : sortByConfDesc l1 = sortByConfDesc l2 :=
      sorted_eq_of_confFilter _ _ (sortByConfDesc_pairwise l1) (sortByConfDesc_pairwise l2)
        (fun q => by rw [confFilter_sortByConfDesc, confFilter_sortByConfDesc]; exact h q)
    unfold nonMaxSuppression
    by_cases h1 : l1 = []
    · rw [if_pos h1, if_pos (hnil.mp h1)]
    · rw [if_neg h1, if_neg (fun h2 => h1 (hnil.mpr h2)), hsort]
  · intro q
    unfold nonMaxSuppression
    by_cases h1 : l1 = []
    · rw [if_pos h1]
      simp [confFilter]
    · rw [if_neg h1]
      have hsub : (confFilter q (nmsLoop k (sortByConfDesc l1))).Sublist
          (confFilter q (sortByConfDesc l1)) :=
        List.Sublist.filter _ (nmsLoop_sublist k _)
      rw [confFilter_sortByConfDesc] at hsub
      exact hsub

/-- A confidence-2 candidate for the tie-break witness. -/
def tieA : Candidate :=
  { x := 0, y := 0, width := 1, height := 1, confidence := 2, class_id := none, label := "a" }

/-- First of two equal-confidence candidates for the tie-break witness. -/
def tieB : Candidate :=
  { x := 5, y := 5, width := 1, height := 1, confidence := 1, class_id := none, label := "b" }

/-- Second of two equal-confidence candidates for the tie-break witness. -/
def tieC : Candidate :=
  { x := 9, y := 9, width := 1, height := 1, confidence := 1, class_id := none, label := "c" }

/-- Witness for C8: `[tieA, tieB, tieC]` and `[tieB, tieC, tieA]` are
permutations of each other preserving the relative order of the
equal-confidence pair `tieB, tieC`; suppression agrees on them, and the
confidence-1 candidates keep their decode order in the output. -/
theorem suppression_respects_stable_tie_break_witness :
    nonMaxSuppression [tieA, tieB, tieC] 1 = nonMaxSuppression [tieB, tieC, tieA] 1 ∧
    (confFilter 1 (nonMaxSuppression [tieA, tieB, tieC] 1)).Sublist
      (confFilter 1 [tieA, tieB, tieC]) := by
  have hyp : ∀ q, confFilter q [tieA, tieB, tieC] = confFilter q [tieB, tieC, tieA] := by
    intro q
    simp only [confFilter, List.filter_cons, List.filter_nil, tieA, tieB, tieC]
    by_cases h2 : (2 : ℚ) = q <;> by_cases h1 : (1 : ℚ) = q
    · rw [← h2] at h1
      norm_num at h1
    · simp [h2, h1]
    · simp [h2, h1]
    · simp [h2, h1]
  exact ⟨(suppression_respects_stable_tie_break [tieA, tieB, tieC] [tieB, tieC, tieA] 1 hyp).1,
    (suppression_respects_stable_tie_break [tieA, tieB, tieC] [tieB, tieC, tieA] 1 hyp).2 1⟩


/-- The argmax fold never leaves its `(null, 0)` start when every visited
score is non-positive, because the update comparison is a strict `>`. -/
theorem argmax_foldl_nonpos (data : List ℚ) (offset : ℕ) (L : List ℕ)
    (h : ∀ j ∈ L, data.getD (offset + j) 0 ≤ 0) :
    L.foldl
      (fun acc j =>
        if data.getD (offset + j) 0 > acc.2 then (some (j - 5), data.getD (offset + j) 0)
        else acc)
      ((none : Option ℕ), (0 : ℚ)) = (none, 0) := by
  induction L with
  | nil => rfl
  | cons j L ih =>
    simp only [List.foldl_cons]
    rw [if_neg (not_lt_of_ge (h j (List.mem_cons_self j L)))]
    exact ih fun j' hj' => h j' (List.mem_cons_of_mem _ hj')

/-- Every decoded candidate has its label computed from its own `class_id` by
the `CLASS_NAMES[bestClass] ||` expression. -/
theorem decodeSlot_label_eq_labelFor (data : List ℚ) (numAttributes i : ℕ) :
    (decodeSlot data numAttributes i).label =
      labelFor (decodeSlot data numAttributes i).class_id := rfl

/-- When the class index is absent from the label table the `||` fallback
synthesizes `Unknown_<index>`. -/
theorem labelFor_of_get?_none (i : ℕ) (h : CLASS_NAMES.get? i = none) :
    labelFor (some i) = "Unknown_" ++ toString i := by
  simp only [labelFor]
  rw [h]
  rfl

/-- C9: every candidate `postprocess` emits whose class index is not present
in the `CLASS_NAMES` table carries the synthesized label
`Unknown_<index>`; the lookup never throws (the embedding is total). -/
theorem out_of_range_class_gets_synthesized_label
    (data : List ℚ) (numPredictions numAttributes : ℕ) (t k : ℚ)
    (c : Candidate) (cid : ℕ)
    (hmem : c ∈ postprocess data numPredictions numAttributes t k)
    (hcid : c.class_id = some cid)
    (hout : CLASS_NAMES.get? cid = none) :
    c.label = "Unknown_" ++ toString cid := by
  have hdec : c ∈ decode data numPredictions numAttributes t :=
    mem_nonMaxSuppression c _ k hmem
  rcases List.mem_filterMap.mp hdec with ⟨i, hi, hfi⟩
  by_cases hconf : data.getD (i * numAttributes + 4) 0 ≥ t
  · rw [if_pos hconf] at hfi
    injection hfi with hfi
    have hlab : c.label = labelFor c.class_id := by
      rw [← hfi]
      rfl
    rw [hlab, hcid]
    exact labelFor_of_get?_none cid hout
  · rw [if_neg hconf] at hfi
    exact absurd hfi (by simp)

/-- A one-slot raw output tensor with `numAttributes = 32`: confidence `1`
and the only positive class score at class index `26`, one past the end of
the 26-entry label table. -/
def outOfRangeData : List ℚ :=
  [5, 6, 7, 8, 1] ++ List.replicate 26 0 ++ [1]

set_option maxRecDepth 8192 in
/-- Witness for C9: the candidate decoded from `outOfRangeData` has class
index `26`, which is outside the 26-entry table, and its label is
`Unknown_26`. -/
theorem out_of_range_class_gets_synthesized_label_witness :
    (decodeSlot outOfRangeData 32 0).class_id = some 26 ∧
    CLASS_NAMES.get? 26 = none ∧
    (decodeSlot outOfRangeData 32 0).label = "Unknown_" ++ toString 26 := by
  have hcid : (decodeSlot outOfRangeData 32 0).class_id = some 26 := by decide
  have hout : CLASS_NAMES.get? 26 = none := by decide
  refine ⟨hcid, hout, ?_⟩
  apply out_of_range_class_gets_synthesized_label outOfRangeData 1 32 1 1 _ 26 _ hcid hout
  have h1 : decode outOfRangeData 1 32 1 = [decodeSlot outOfRangeData 32 0] := by
    simp [decode, List.range_succ, outOfRangeData]
  have h2 : postprocess outOfRangeData 1 32 1 1 = [decodeSlot outOfRangeData 32 0] := by
    rw [postprocess, h1, nonMaxSuppression, if_neg (by simp)]
    simp [sortByConfDesc, insertByConf]
    rw [nmsLoop]
    simp only [List.filter_nil]
    rw [nmsLoop]
  rw [h2]
  exact List.mem_singleton.mpr rfl

/-- C10: the argmax starts from `bestScore = 0`, `bestClass = null` with a
strict `>` comparison, so a slot all of whose class scores (offsets
`5 .. numAttributes-1`) are non-positive — including the degenerate
`numAttributes = 5` case with no class scores — decodes with
`class_id = null` and label `Unknown_null`. -/
theorem all_nonpositive_scores_give_null_class
    (data : List ℚ) (numAttributes i : ℕ)
    (h : ∀ j, 5 ≤ j → j < numAttributes → data.getD (i * numAttributes + j) 0 ≤ 0) :
    (decodeSlot data numAttributes i).class_id = none ∧
    (decodeSlot data numAttributes i).label = "Unknown_null" := by
  have harg : (argmaxClass data (i * numAttributes) numAttributes).1 = none := by
    unfold argmaxClass
    rw [argmax_foldl_nonpos]
    intro j hj
    rcases List.mem_range'_1.mp hj with ⟨h5, hlt⟩
    exact h j h5 (by omega)
  constructor
  · exact harg
  · show labelFor (argmaxClass data (i * numAttributes) numAttributes).1 = _
    rw [harg]
    rfl

/-- Witness for C10 on the slot `[0, 0, 0, 0, 1, -1]` with
`numAttributes = 6`: the only class score is `-1 ≤ 0`. -/
theorem all_nonpositive_scores_give_null_class_witness :
    (decodeSlot [0, 0, 0, 0, 1, -1] 6 0).class_id = none ∧
    (decodeSlot [0, 0, 0, 0, 1, -1] 6 0).label = "Unknown_null" := by
  apply all_nonpositive_scores_give_null_class
  intro j h5 h6
  have hj : j = 5 := by omega
  subst hj
  norm_num

end FreshTrack


